import Mathlib

/-!
# StockLensAnalytics — verification of the analytics services

Shallow embedding of the repository's services over `ℚ` (prices, weights,
returns) and `Nat` (dates; `pd.to_datetime` is injective and monotone on the
textual dates, so only the order and equality of dates matter).

Modelling conventions, used throughout:
* a pandas `NaN` cell is `Option.none`;
* Python's `round(x, k)` (round-half-to-even on floats) is modelled by
  round-half-up `roundTo k`; the two agree except at exact decimal ties,
  and no theorem below depends on a tie;
* `pandas.sort_values` / `sorted` are modelled by the stable
  `List.insertionSort` (deterministic, stable — `sort_values`'s descending
  path reverses the input, argsorts, and reverses the result, so ties end
  up in input order);
* `groupby` enumerates its keys in sorted order (pandas default
  `sort=True`), `DataFrame.unique` / `drop_duplicates` / dict insertion keep
  first occurrences.
-/

/-- Kernel-computable floor of a rational (`⌊q⌋`, see `qfloor_eq_floor`). -/
def qfloor (q : ℚ) : ℤ := q.num / q.den

/-- Round-half-up of `x` to `k` decimal places (model of Python `round(x, k)`). -/
def roundTo (k : Nat) (x : ℚ) : ℚ := (qfloor (x * 10 ^ k + 1 / 2) : ℚ) / 10 ^ k

/-- Arithmetic mean of a list (pandas `.mean()`); `0` on the empty list. -/
def listMean (l : List ℚ) : ℚ := l.sum / l.length

/-- Keep the first occurrence of each element (pandas `unique` /
`drop_duplicates` / dict-key insertion order), structurally recursive. -/
def dedupFirstAux [DecidableEq α] (seen : List α) : List α → List α
  | [] => []
  | x :: xs => if x ∈ seen then dedupFirstAux seen xs else x :: dedupFirstAux (x :: seen) xs

/-- Keep the first occurrence of each element of `l`, in order. -/
def dedupFirst [DecidableEq α] (l : List α) : List α := dedupFirstAux [] l

/-- Code-point lexicographic comparison of character lists — Python's `str`
ordering, kernel-computable (`String`'s builtin `≤` runs on byte iterators
and does not reduce). -/
def strLeAux : List Char → List Char → Bool
  | [], _ => true
  | _ :: _, [] => false
  | c :: cs, d :: ds =>
    if c.toNat < d.toNat then true
    else if d.toNat < c.toNat then false
    else strLeAux cs ds

/-- Code-point lexicographic `≤` on strings (Python string comparison). -/
def StrLE (a b : String) : Prop := strLeAux a.data b.data = true

instance : DecidableRel StrLE := fun _ _ => instDecidableEqBool _ _

theorem strLeAux_cons_iff {x y : Char} {xs ys : List Char} :
    strLeAux (x :: xs) (y :: ys) = true ↔
      (x.toNat < y.toNat ∨ (x.toNat = y.toNat ∧ strLeAux xs ys = true)) := by
  simp only [strLeAux]
  split_ifs with h1 h2
  · simpa using Or.inl h1
  · simp only [Bool.false_eq_true, false_iff]
    rintro (h | ⟨h, _⟩) <;> omega
  · have hxy : x.toNat = y.toNat := by omega
    simp [hxy]

theorem strLeAux_total : ∀ (l1 l2 : List Char),
    strLeAux l1 l2 = true ∨ strLeAux l2 l1 = true
  | [], _ => Or.inl rfl
  | _ :: _, [] => Or.inr rfl
  | x :: xs, y :: ys => by
    rcases strLeAux_total xs ys with h | h <;>
      rcases Nat.lt_trichotomy x.toNat y.toNat with hc | hc | hc <;>
      simp [strLeAux_cons_iff, hc, h]

theorem strLeAux_trans : ∀ (l1 l2 l3 : List Char),
    strLeAux l1 l2 = true → strLeAux l2 l3 = true → strLeAux l1 l3 = true
  | [], _, _, _, _ => rfl
  | _ :: _, [], _, hab, _ => by simp [strLeAux] at hab
  | _ :: _, _ :: _, [], _, hbc => by simp [strLeAux] at hbc
  | x :: xs, y :: ys, z :: zs, hab, hbc => by
    rw [strLeAux_cons_iff] at hab hbc ⊢
    rcases hab with h1 | ⟨h1, h1r⟩ <;> rcases hbc with h2 | ⟨h2, h2r⟩
    · exact Or.inl (by omega)
    · exact Or.inl (by omega)
    · exact Or.inl (by omega)
    · exact Or.inr ⟨by omega, strLeAux_trans xs ys zs h1r h2r⟩

instance : IsTotal String StrLE where
  total a b := strLeAux_total a.data b.data

instance : IsTrans String StrLE where
  trans a b c hab hbc := strLeAux_trans a.data b.data c.data hab hbc

/-! ## GeneralAnalyticsService (`src/Services/GeneralAnalyticsService.py`) -/

/-- One input record of `/general_analytics` (`StockItem`). -/
structure PriceRec where
  symbol : String
  date : Nat
  close : ℚ
deriving DecidableEq, Repr

/-- Model of `df.groupby("symbol")["close"].transform("first")` — the `close` of the
*first record in input order* with the given symbol (the active
`normalize_prices_from_json`, line 69, does **not** sort by date first). -/
def firstClose (recs : List PriceRec) (s : String) : ℚ :=
  match recs.find? (fun r => r.symbol = s) with
  | some r => r.close
  | none => 0

/-- Line 70: `normalized = close / first_price * 100` for one row. -/
def normalizedRow (recs : List PriceRec) (r : PriceRec) : ℚ :=
  r.close / firstClose recs r.symbol * 100

/-- The distinct dates of the input, ascending — the group keys of
`df.groupby("date")` (pandas groupby sorts its keys). -/
def datesSorted (recs : List PriceRec) : List Nat :=
  (dedupFirst (recs.map (fun r => r.date))).insertionSort (· ≤ ·)

/-- Model of `GeneralAnalyticsService.normalize_prices_from_json` on non-empty input:
per-row normalization against the symbol's first-listed close, then the
per-date mean across rows, rounded to 2 decimals, ordered by date. -/
def normalize_prices_from_json (recs : List PriceRec) : List (Nat × ℚ) :=
  (datesSorted recs).map fun d =>
    (d, roundTo 2 (listMean ((recs.filter (fun r => r.date = d)).map (normalizedRow recs))))

/-- The close of the symbol's *earliest observation by date* (stable among
equal dates). This follows the spec's words — "`close_0` is the symbol's
earliest observation" — for comparison with the code's `firstClose`. -/
def earliestClose (recs : List PriceRec) (s : String) : ℚ :=
  match (((recs.filter (fun r => r.symbol = s))).insertionSort
      (fun a b => a.date ≤ b.date)).head? with
  | some r => r.close
  | none => 0

/-- The spec's version of the normalization ("rebases against the symbol's
earliest observation"), for comparison with `normalize_prices_from_json`. -/
def normalize_spec (recs : List PriceRec) : List (Nat × ℚ) :=
  (datesSorted recs).map fun d =>
    (d, roundTo 2 (listMean ((recs.filter (fun r => r.date = d)).map
      (fun r => r.close / earliestClose recs r.symbol * 100))))




/-! ## PortfolioService (`src/Services/PortfolioService.py`)

`calculate_metrics` takes records with `symbol, date, close, percentage`
(weights ride on every row).  The wide pivot `date × symbol` is shared with
the optimize path, so it is modelled once over plain
`(symbol, date, close)` rows. -/

/-- One input record of `/portfolio/own-weights` (`OwnWeightsItem`). -/
structure WRec where
  symbol : String
  date : Nat
  close : ℚ
  percentage : ℚ
deriving DecidableEq, Repr

/-- The `(symbol, date, close)` columns of the portfolio input. -/
def wrows (recs : List WRec) : List (String × Nat × ℚ) :=
  recs.map fun r => (r.symbol, r.date, r.close)

/-- The distinct symbols, sorted — both `weights_dict`'s key order (pandas
`groupby('symbol')` sorts its keys, and `tickers_order = list(weights_dict)`)
and the pivot's column set. -/
def tblSymbols (rows : List (String × Nat × ℚ)) : List String :=
  (dedupFirst (rows.map (·.1))).insertionSort StrLE

/-- The distinct dates, ascending — the pivot's row index
(`pivot(index='date', ...)` sorts the index). -/
def tblDates (rows : List (String × Nat × ℚ)) : List Nat :=
  (dedupFirst (rows.map (fun r => r.2.1))).insertionSort (· ≤ ·)

/-- One cell of the wide pivot: the close of symbol `s` on date `d`, `none`
(pandas `NaN`) when the input has no such row.  (`DataFrame.pivot` raises on
duplicate `(date, symbol)` pairs, checked separately by `hasDupKeys`.) -/
def tblCell (rows : List (String × Nat × ℚ)) (d : Nat) (s : String) : Option ℚ :=
  (rows.find? fun r => decide (r.1 = s ∧ r.2.1 = d)).map (fun r => r.2.2)

/-- Whether some `(symbol, date)` key repeats — `pivot` raises on this. -/
def hasDupKeys (rows : List (String × Nat × ℚ)) : Bool :=
  !decide (rows.map (fun r => (r.1, r.2.1))).Nodup

/-- The date sitting at position `t` of the pivot's row index. -/
def dateAt (rows : List (String × Nat × ℚ)) (t : Nat) : Nat :=
  (tblDates rows).getD t 0

/-- Model of `pivot / pivot.shift(1)` at row `t`, column `s` (missing cells read `0`;
only used where `retCellDefined` holds). -/
def retRatio (rows : List (String × Nat × ℚ)) (t : Nat) (s : String) : ℚ :=
  ((tblCell rows (dateAt rows t) s).getD 0) / ((tblCell rows (dateAt rows (t - 1)) s).getD 0)

/-- Whether the return cell at row `t`, column `s` is non-`NaN`: row `t` is
not the first row and both the row-`t` and row-`t−1` prices exist. -/
def retCellDefined (rows : List (String × Nat × ℚ)) (t : Nat) (s : String) : Bool :=
  decide (0 < t) && ((tblCell rows (dateAt rows t) s).isSome
    && (tblCell rows (dateAt rows (t - 1)) s).isSome)

/-- Model of `np.log(pivot / pivot.shift(1)).dropna()` — `dropna()` drops *rows*: the
pivot-row positions whose return cells are all defined.  (Row 0 is always
dropped: `shift(1)` makes it all-`NaN`.) -/
def keptRows (rows : List (String × Nat × ℚ)) : List Nat :=
  (List.range (tblDates rows).length).filter fun t =>
    decide (0 < t) && (tblSymbols rows).all fun s => retCellDefined rows t s

/-- The symbols whose price series has no gap over the pivot dates — the
columns the *spec* says survive ("drops any column with a missing value"). -/
def completeSymbols (rows : List (String × Nat × ℚ)) : List String :=
  (tblSymbols rows).filter fun s => (tblDates rows).all fun d => (tblCell rows d s).isSome

/-- The `(row, column)` positions of the returns table that feed the metric
computations after `dropna()`: every column, at every kept row. -/
def usedReturnCells (rows : List (String × Nat × ℚ)) : List (Nat × String) :=
  ((keptRows rows).map fun t => (tblSymbols rows).map fun s => (t, s)).flatten

/-- Model of `weights_dict[s]`: the `percentage` of the symbol's first row
(`group['percentage'].unique()[0]`; `calculate_metrics` has already checked
constancy, so any row's value would do). -/
def weightsOf (recs : List WRec) (s : String) : ℚ :=
  match recs.find? (fun r => decide (r.symbol = s)) with
  | some r => r.percentage
  | none => 0

/-- Lines 27–32: every row of a symbol carries the same `percentage`. -/
def constancyOk (recs : List WRec) : Bool :=
  recs.all fun r => recs.all fun r2 =>
    decide (r.symbol = r2.symbol → r.percentage = r2.percentage)

/-- Model of `total_weight = sum(weights_dict.values())`. -/
def totalWeight (recs : List WRec) : ℚ :=
  ((tblSymbols (wrows recs)).map (weightsOf recs)).sum

/-- Acceptance margin of `np.isclose(total_weight, 1.0)` with numpy's default
tolerances: `atol + rtol * |1.0| = 1e-8 + 1e-5`. -/
def npIscloseTol : ℚ := 1 / 100000000 + 1 / 100000

/-- Line 35: `np.isclose(total_weight, 1.0)`. -/
def weightSumOk (recs : List WRec) : Bool :=
  decide (|totalWeight recs - 1| ≤ npIscloseTol)

/-- The validation failures `calculate_metrics` can raise, in program order.
(The line-41 “tickers missing from data” check cannot fire in this typed
embedding: the pivot's columns are exactly `weights_dict`'s keys.) -/
inductive MetricsErr where
  | emptyInput
  | inconsistentWeights
  | badWeightSum
  | duplicateKeys
  | noReturns
deriving DecidableEq, Repr

/-- The validation pipeline of `calculate_metrics` (lines 16–50): which
`ValueError`, if any, the call raises before reaching the numeric part. -/
def metricsError (recs : List WRec) : Option MetricsErr :=
  if recs.isEmpty then some .emptyInput
  else if !constancyOk recs then some .inconsistentWeights
  else if !weightSumOk recs then some .badWeightSum
  else if hasDupKeys (wrows recs) then some .duplicateKeys
  else if (keptRows (wrows recs)).isEmpty then some .noReturns
  else none

/-- The spec's clamp: `clamp(x, 0.0, 1.0)`. -/
def clamp01 (x : ℚ) : ℚ := max 0 (min 1 x)

/-- Lines 77 and 84: `div_index = max(0.0, min(1.0, 1.0 - avg_corr))`,
rounded to 4 decimals in the response. -/
def div_index (avg_corr : ℚ) : ℚ := roundTo 4 (max 0 (min 1 (1 - avg_corr)))

def exC2 : List WRec :=
  [⟨"A", 1, 100, 1/2⟩, ⟨"A", 2, 110, 1/2⟩,
   ⟨"B", 1, 100, 500005/1000000⟩, ⟨"B", 2, 120, 500005/1000000⟩]


def exC4 : List WRec :=
  [⟨"A", 1, 100, 1/2⟩, ⟨"A", 2, 110, 1/2⟩, ⟨"A", 3, 121, 1/2⟩, ⟨"A", 4, 133, 1/2⟩,
   ⟨"B", 1, 100, 1/2⟩, ⟨"B", 2, 200, 1/2⟩, ⟨"B", 4, 100, 1/2⟩]


/-! ## Top10AntiCrisisService (`src/Services/Top10AntyCrisisService.py`) -/

/-- One input record of `/anti-crisis-top10` (`StockDataItem`): `avg_dividend`
and `value` are optional; a missing cell is `none` (pandas `NaN`).  The
string-to-number coercion of `value` (`pd.to_numeric(errors='coerce')`) is
absorbed into the `Option ℚ` representation. -/
structure SRec where
  symbol : String
  date : Nat
  close : ℚ
  avg_dividend : Option ℚ
  value : Option ℚ
deriving DecidableEq, Repr

/-- The `ValueError`s of `prepare_data`, in program order. -/
inductive PrepErr where
  | emptyInput
  | noMoex
  | noStocks
deriving DecidableEq, Repr

/-- Model of `df[df['symbol'] == 'MOEX'][['date', 'close']]` — the benchmark series,
in input row order. -/
def moexRows (recs : List SRec) : List (Nat × ℚ) :=
  (recs.filter fun r => decide (r.symbol = "MOEX")).map fun r => (r.date, r.close)

/-- Model of `df[df['symbol'] != 'MOEX']` — the candidate rows, in input row order. -/
def stockRows (recs : List SRec) : List SRec :=
  recs.filter fun r => !decide (r.symbol = "MOEX")

/-- Model of `pd.to_numeric(value, errors='coerce').fillna(0).astype(int)`:
a missing volume becomes `0`, a numeric one is truncated toward zero. -/
def volumeInt (v : Option ℚ) : ℤ :=
  match v with
  | some q => q.num.tdiv q.den
  | none => 0

/-- Model of `Top10AntiCrisisService.prepare_data`, validation and split (lines
11–41).  The renaming and the per-symbol `groupby` packaging of the stock
rows carry no information and are left to the callers. -/
def prepare_data (recs : List SRec) : Except PrepErr (List (Nat × ℚ) × List SRec) :=
  if recs.isEmpty then .error .emptyInput
  else if (moexRows recs).isEmpty then .error .noMoex
  else if (stockRows recs).isEmpty then .error .noStocks
  else .ok (moexRows recs, stockRows recs)

/-- Model of `pct_change() * 100` of a close series at position `t` (`NaN`-free only
for `1 ≤ t`; missing reads default to `0` and are never used at `t = 0`). -/
def pctRet (closes : List ℚ) (t : Nat) : ℚ :=
  (closes.getD t 0 / closes.getD (t - 1) 0 - 1) * 100

/-- Model of `find_stress_days` (lines 43–47): the dates at positions `1 ≤ t` of the
benchmark series whose day-over-day percentage return is `≤ threshold`
(`returns.iloc[1:]`, so position 0 is never selected). -/
def find_stress_days (series : List (Nat × ℚ)) (threshold : ℚ) : List Nat :=
  ((List.range series.length).filter fun t =>
      decide (1 ≤ t) && decide (pctRet (series.map fun p => p.2) t ≤ threshold)).map
    fun t => (series.getD t (0, 0)).1

/-- The output record of `calculate_anti_crisis_score`; `none` in
`dividend_yield`/`score` models a pandas `NaN`. -/
structure ScoreOut where
  relative_strength : ℚ
  resilient_ratio : ℚ
  dividend_yield : Option ℚ
  avg_volume : ℚ
  score : Option ℚ
deriving DecidableEq, Repr

/-- Lines 56–66: restrict the candidate and the benchmark to the stress
dates and inner-join on date, in the candidate's row order (`pd.merge`;
benchmark dates are matched by their first occurrence). -/
def mergedRows (stock : List SRec) (stress : List Nat) (moex : List (Nat × ℚ)) :
    List (Nat × ℚ × ℚ) :=
  let stressMoex := moex.filter fun p => decide (p.1 ∈ stress)
  (stock.filter fun r => decide (r.date ∈ stress)).filterMap fun r =>
    (stressMoex.find? fun p => decide (p.1 = r.date)).map fun p => (r.date, r.close, p.2)

/-- Model of `pct_change().dropna() * 100` of a close series, as a list (positions
`1..n-1`). -/
def pctSeries (closes : List ℚ) : List ℚ :=
  (List.range (closes.length - 1)).map fun i => pctRet closes (i + 1)

/-- Model of `calculate_anti_crisis_score` (lines 49–100).  `hasDividendCol` is
`'AvgDividend' in stock_data.columns` — a whole-table property: via
`run_analysis` the column always exists (`prepare_data` selects it), and a
candidate whose rows all lack the value gets `NaN`, not the `0.0` fallback. -/
def calculate_anti_crisis_score (stock : List SRec) (stress : List Nat)
    (moex : List (Nat × ℚ)) (hasDividendCol : Bool) : Option ScoreOut :=
  let merged := mergedRows stock stress moex
  if merged.length < 2 then none
  else
    let sr := pctSeries (merged.map fun m => m.2.1)
    let mr := pctSeries (merged.map fun m => m.2.2)
    let rs := listMean (List.zipWith (fun a b => a - b) sr mr)
    let better := (List.zipWith (fun a b => decide (b < a)) sr mr).count true
    let ratio := (better : ℚ) / sr.length
    let dy : Option ℚ :=
      if hasDividendCol then
        match stock.getLast? with
        | some r => r.avg_dividend
        | none => none
      else some 0
    let vol := listMean (stock.map fun r => ((volumeInt r.value : ℤ) : ℚ)) / 1000000
    some { relative_strength := roundTo 2 rs
           resilient_ratio := roundTo 3 ratio
           dividend_yield := dy.map (roundTo 2)
           avg_volume := roundTo 2 vol
           score := dy.map fun d => roundTo 2 (rs * 2 + ratio * 100 + d) }

/-- The fields of one scored candidate that the ranking stage looks at (the
remaining per-candidate fields ride along unchanged).  A `none` score is a
pandas `NaN` score — reachable when the candidate's last input row carries
no dividend value, see C8. -/
structure RankIn where
  ticker : String
  score : Option ℚ
deriving DecidableEq, Repr

/-- One ranked output record (lines 129–132). -/
structure RankOut where
  ticker : String
  score : Option ℚ
  rank : Nat
deriving DecidableEq, Repr

/-- Constant `SMALL_QUICKSORT = 15` of numpy's `npysort`: a partition whose
length is at most 16 is finished by the insertion sort, which is stable. -/
def npySmallQuicksort : Nat := 15

/-- Fueled loop of `npy_get_msb` (index of the most significant set bit). -/
def npyGetMsbAux : Nat → Nat → Nat
  | 0, _ => 0
  | fuel + 1, n => if n ≤ 1 then 0 else npyGetMsbAux fuel (n / 2) + 1

/-- Model of `npy_get_msb n` (`0` for `0`). -/
def npyGetMsb (n : Nat) : Nat := npyGetMsbAux n n

/-- Read of `tosort[i]` (`i` is a C pointer offset, in range whenever the
source dereferences it). -/
def tsGet (ts : List Nat) (i : Int) : Nat := ts.getD i.toNat 0

/-- Model of `INTP_SWAP(tosort[i], tosort[j])`. -/
def tsSwap (ts : List Nat) (i j : Int) : List Nat :=
  (ts.set i.toNat (tsGet ts j)).set j.toNat (tsGet ts i)

/-- Read of `v[idx]`. -/
def valAt (v : List ℚ) (idx : Nat) : ℚ := v.getD idx 0

/-- Read of `v[tosort[i]]`. -/
def vAt (v : List ℚ) (ts : List Nat) (i : Int) : ℚ := valAt v (tsGet ts i)

/-- Model of the partition scan `do ++pi; while (LT(v[*pi], vp));`. -/
def scanUp (v : List ℚ) (ts : List Nat) (vp : ℚ) : Nat → Int → Int
  | 0, pi => pi
  | fuel + 1, pi =>
    if vAt v ts (pi + 1) < vp then scanUp v ts vp fuel (pi + 1) else pi + 1

/-- Model of the partition scan `do --pj; while (LT(vp, v[*pj]));`. -/
def scanDown (v : List ℚ) (ts : List Nat) (vp : ℚ) : Nat → Int → Int
  | 0, pj => pj
  | fuel + 1, pj =>
    if vp < vAt v ts (pj - 1) then scanDown v ts vp fuel (pj - 1) else pj - 1

/-- Swap loop of the partition step: `for (;;) { do ..; do ..; if (pi >= pj)
break; SWAP; }`; returns the final index array and scan position `pi`. -/
def partSwapLoop (v : List ℚ) : Nat → List Nat → Int → Int → ℚ → List Nat × Int
  | 0, ts, pi, _, _ => (ts, pi)
  | fuel + 1, ts, pi, pj, vp =>
    let pi2 := scanUp v ts vp (ts.length + 2) pi
    let pj2 := scanDown v ts vp (ts.length + 2) pj
    if pi2 ≥ pj2 then (ts, pi2)
    else partSwapLoop v fuel (tsSwap ts pi2 pj2) pi2 pj2 vp

/-- One quicksort partition of `tosort[pl..pr]`: median-of-3 pivot selection,
pivot parked at `pr − 1`, Hoare-style scans; returns the permuted index
array and the pivot's final position. -/
def partitionStep (v : List ℚ) (ts : List Nat) (pl pr : Int) : List Nat × Int :=
  let pm := pl + (pr - pl) / 2
  let ts1 := if vAt v ts pm < vAt v ts pl then tsSwap ts pm pl else ts
  let ts2 := if vAt v ts1 pr < vAt v ts1 pm then tsSwap ts1 pr pm else ts1
  let ts3 := if vAt v ts2 pm < vAt v ts2 pl then tsSwap ts2 pm pl else ts2
  let vp := vAt v ts3 pm
  let ts4 := tsSwap ts3 pm (pr - 1)
  let out := partSwapLoop v (ts4.length + 2) ts4 pl (pr - 1) vp
  (tsSwap out.1 out.2 (pr - 1), out.2)

/-- Read of `a[i]` in `aheapsort`, where `a = tosort − 1` (1-based heap). -/
def haGet (seg : List Nat) (i : Int) : Nat := seg.getD (i - 1).toNat 0

/-- Write of `a[i] = x` in `aheapsort`. -/
def haSet (seg : List Nat) (i : Int) (x : Nat) : List Nat :=
  seg.set (i - 1).toNat x

/-- Sift loop of `aheapsort`: `for (i = l, j = l * 2; j <= n;) { ... }`
followed by `a[i] = tmp`. -/
def heapSift (v : List ℚ) (n : Int) (tmp : Nat) : Nat → List Nat → Int → Int → List Nat
  | 0, seg, i, _ => haSet seg i tmp
  | fuel + 1, seg, i, j =>
    if j ≤ n then
      let j2 := if j < n ∧ valAt v (haGet seg j) < valAt v (haGet seg (j + 1)) then j + 1 else j
      if valAt v tmp < valAt v (haGet seg j2) then
        heapSift v n tmp fuel (haSet seg i (haGet seg j2)) j2 (2 * j2)
      else haSet seg i tmp
    else haSet seg i tmp

/-- Heap construction of `aheapsort`: `for (l = n >> 1; l > 0; --l)`. -/
def heapBuild (v : List ℚ) (n : Int) : Nat → List Nat → Int → List Nat
  | 0, seg, _ => seg
  | fuel + 1, seg, l =>
    if l > 0 then
      heapBuild v n fuel (heapSift v n (haGet seg l) (seg.length + 2) seg l (2 * l)) (l - 1)
    else seg

/-- Extraction loop of `aheapsort`: `for (; n > 1;)`. -/
def heapPop (v : List ℚ) : Nat → List Nat → Int → List Nat
  | 0, seg, _ => seg
  | fuel + 1, seg, n =>
    if n > 1 then
      let tmp := haGet seg n
      let seg2 := haSet seg n (haGet seg 1)
      heapPop v fuel (heapSift v (n - 1) tmp (seg2.length + 2) seg2 1 2) (n - 1)
    else seg

/-- Model of `aheapsort(vv, pl, pr − pl + 1)`: heapsort of the segment
`tosort[pl..pr]`, the depth-limit fallback of the introsort (never reached
on the inputs evaluated below, but part of the algorithm). -/
def aheapsortSeg (v : List ℚ) (ts : List Nat) (pl pr : Int) : List Nat :=
  let seg := (ts.drop pl.toNat).take (pr - pl + 1).toNat
  let n : Int := seg.length
  let popped := heapPop v (seg.length + 2) (heapBuild v n (seg.length + 2) seg (n / 2)) n
  ts.take pl.toNat ++ popped ++ ts.drop (pr + 1).toNat

/-- Inner shift loop of the small-partition insertion sort:
`while (pj > pl && LT(vp, v[*pk])) *pj-- = *pk--;` then `*pj = vi;`. -/
def insShift (v : List ℚ) (vp : ℚ) (vi : Nat) (pl : Int) : Nat → List Nat → Int → List Nat
  | 0, ts, pj => ts.set pj.toNat vi
  | fuel + 1, ts, pj =>
    if pj > pl ∧ vp < vAt v ts (pj - 1) then
      insShift v vp vi pl fuel (ts.set pj.toNat (tsGet ts (pj - 1))) (pj - 1)
    else ts.set pj.toNat vi

/-- Insertion sort finishing a small partition:
`for (pi = pl + 1; pi <= pr; ++pi)`. -/
def insSortSeg (v : List ℚ) (pl pr : Int) : Nat → List Nat → Int → List Nat
  | 0, ts, _ => ts
  | fuel + 1, ts, pi =>
    if pi ≤ pr then
      insSortSeg v pl pr fuel
        (insShift v (valAt v (tsGet ts pi)) (tsGet ts pi) pl (ts.length + 2) ts pi) (pi + 1)
    else ts

/-- Inner `while ((pr - pl) > SMALL_QUICKSORT)` of `aquicksort`: partition,
push the larger side together with the decremented depth budget, iterate
into the smaller side; returns the loop-exit state
`(tosort, pl, pr, stack, depthstack, cdepth)`. -/
def aqsPartitions (v : List ℚ) :
    Nat → List Nat → Int → Int → List (Int × Int) → List Int → Int →
      List Nat × Int × Int × List (Int × Int) × List Int × Int
  | 0, ts, pl, pr, stack, dstack, cdepth => (ts, pl, pr, stack, dstack, cdepth)
  | fuel + 1, ts, pl, pr, stack, dstack, cdepth =>
    if pr - pl > (npySmallQuicksort : Int) then
      let out := partitionStep v ts pl pr
      let pi := out.2
      if pi - pl < pr - pi then
        aqsPartitions v fuel out.1 pl (pi - 1) ((pi + 1, pr) :: stack)
          ((cdepth - 1) :: dstack) (cdepth - 1)
      else
        aqsPartitions v fuel out.1 (pi + 1) pr ((pl, pi - 1) :: stack)
          ((cdepth - 1) :: dstack) (cdepth - 1)
    else (ts, pl, pr, stack, dstack, cdepth)

/-- Outer `for (;;)` of `aquicksort`: depth check with heapsort fallback,
the partition loop, insertion sort of the remaining small partition, and
the stack pop. -/
def aqsOuter (v : List ℚ) :
    Nat → List Nat → Int → Int → List (Int × Int) → List Int → Int → List Nat
  | 0, ts, _, _, _, _, _ => ts
  | fuel + 1, ts, pl, pr, stack, dstack, cdepth =>
    if cdepth < 0 then
      let ts2 := aheapsortSeg v ts pl pr
      match stack, dstack with
      | (pl2, pr2) :: st, d :: ds => aqsOuter v fuel ts2 pl2 pr2 st ds d
      | _, _ => ts2
    else
      match aqsPartitions v (ts.length + 2) ts pl pr stack dstack cdepth with
      | (ts1, pl1, pr1, stack1, dstack1, _) =>
        let ts2 := insSortSeg v pl1 pr1 (ts1.length + 2) ts1 (pl1 + 1)
        match stack1, dstack1 with
        | (pl2, pr2) :: st, d :: ds => aqsOuter v fuel ts2 pl2 pr2 st ds d
        | _, _ => ts2

/-- Model of numpy's `aquicksort` (`npysort/quicksort`), the kernel behind
`ndarray.argsort` with the default `kind='quicksort'` — the kind
`sort_values('score', ascending=False)` runs: a median-of-3 introsort over
the index array, finishing partitions of at most `SMALL_QUICKSORT + 1`
elements with a stable insertion sort and falling back to heapsort when the
depth budget `2 * npy_get_msb num` is spent.  Every fuel argument strictly
dominates its loop's iteration count, so the fuel never runs out. -/
def npArgQuicksort (v : List ℚ) : List Nat :=
  aqsOuter v (2 * v.length + 4) (List.range v.length) 0 ((v.length : Int) - 1) [] []
    (npyGetMsb v.length * 2)

/-- Stable ascending comparison on positions: by value, ties by position. -/
def argLE (v : List ℚ) (a b : Nat) : Prop :=
  valAt v a < valAt v b ∨ (valAt v a = valAt v b ∧ a ≤ b)

instance (v : List ℚ) : DecidableRel (argLE v) := fun a b => by
  unfold argLE
  infer_instance

instance (v : List ℚ) : IsTotal Nat (argLE v) where
  total a b := by
    unfold argLE
    rcases lt_trichotomy (valAt v a) (valAt v b) with h | h | h
    · exact Or.inl (Or.inl h)
    · rcases Nat.le_total a b with h2 | h2
      · exact Or.inl (Or.inr ⟨h, h2⟩)
      · exact Or.inr (Or.inr ⟨h.symm, h2⟩)
    · exact Or.inr (Or.inl h)

instance (v : List ℚ) : IsTrans Nat (argLE v) where
  trans a b c hab hbc := by
    unfold argLE at *
    rcases hab with h1 | ⟨h1, h1i⟩ <;> rcases hbc with h2 | ⟨h2, h2i⟩
    · exact Or.inl (h1.trans h2)
    · exact Or.inl (h2 ▸ h1)
    · exact Or.inl (h1 ▸ h2)
    · exact Or.inr ⟨h1.trans h2, h1i.trans h2i⟩

/-- A stable ascending argsort: what a stable `kind` — and numpy's quicksort
kernel on segments inside its insertion-sort regime — produces. -/
def stableArgsort (v : List ℚ) : List Nat :=
  (List.range v.length).insertionSort (argLE v)

/-- Contract of a correct ascending argsort kernel: a permutation of the
positions along which the values are nondecreasing.  numpy documents this
for every `kind`; stability beyond it is NOT promised for the default
quicksort. -/
def IsArgsortKernel (kernel : List ℚ → List Nat) : Prop :=
  ∀ v : List ℚ, List.Perm (kernel v) (List.range v.length)
    ∧ (kernel v).Pairwise fun a b => valAt v a ≤ valAt v b

/-- Value a score position feeds to the argsort kernel. -/
def fScore (scores : List (Option ℚ)) (i : Nat) : ℚ :=
  (scores.getD i none).getD 0

/-- The non-`NaN` score positions, reversed — the index block pandas
`nargsort` hands to the descending path. -/
def rIdxOf (scores : List (Option ℚ)) : List Nat :=
  ((List.range scores.length).filter fun i => (scores.getD i none).isSome).reverse

/-- The `NaN` score positions in input order (`na_position='last'`). -/
def nanIdxOf (scores : List (Option ℚ)) : List Nat :=
  (List.range scores.length).filter fun i => (scores.getD i none).isNone

/-- Model of pandas `nargsort(ascending=False, na_position='last')`, the
engine of `sort_values`: split off the `NaN` positions, reverse the
non-`NaN` block, argsort it ascending with the selected kernel, reverse the
resulting indexer, and append the `NaN` positions in input order.  pandas
reverses the value block and the index block separately; reading the values
through the reversed index block is the same thing. -/
def nargsortDesc (kernel : List ℚ → List Nat) (scores : List (Option ℚ)) : List Nat :=
  ((kernel ((rIdxOf scores).map (fScore scores))).map
      fun k => (rIdxOf scores).getD k 0).reverse
    ++ nanIdxOf scores

/-- Model of `df_results.sort_values('score', ascending=False)` over
position-tagged result rows, parametric in the argsort kernel (the code
runs the default `kind='quicksort'`, i.e. `npArgQuicksort`). -/
def sortValuesDesc (kernel : List ℚ → List Nat) (results : List RankIn) :
    List (Nat × RankIn) :=
  (nargsortDesc kernel (results.map fun r => r.score)).map fun i =>
    (i, results.getD i ⟨"", none⟩)

/-- Model of `.head(10)` after the sort. -/
def top10Sorted (kernel : List ℚ → List Nat) (results : List RankIn) :
    List (Nat × RankIn) :=
  (sortValuesDesc kernel results).take 10

/-- Lines 129–132 of `get_anti_crisis_top10`: sort by score descending,
keep the first 10, attach `rank = 1..len`. -/
def top10Ranked (kernel : List ℚ → List Nat) (results : List RankIn) :
    List RankOut :=
  (top10Sorted kernel results).enum.map fun p => ⟨p.2.2.ticker, p.2.2.score, p.1 + 1⟩

/-- Descending-with-`NaN`-last order on score cells: present scores are
nonincreasing and a present score never follows a `NaN` one. -/
def DescNaN : Option ℚ → Option ℚ → Prop
  | some x, some y => y ≤ x
  | some _, none => True
  | none, none => True
  | none, some _ => False

/-! ## HeatmapForSectors (`src/Services/HeatmapForSectors.py`) -/

/-- One input record of `/sector-correlations` (`SectorStockItem`). -/
structure HRec where
  symbol : String
  date : Nat
  close : ℚ
  sector : String
deriving DecidableEq, Repr

/-- Line 33: `sorted(df['sector'].unique())` — distinct sectors,
lexicographically sorted. -/
def sectorsSorted (recs : List HRec) : List String :=
  (dedupFirst (recs.map fun r => r.sector)).insertionSort StrLE

/-- Model of `df[['symbol','sector']].drop_duplicates()` — the distinct
(symbol, sector) pairs, first occurrences, in order. -/
def pairsFirst (recs : List HRec) : List (String × String) :=
  dedupFirst (recs.map fun r => (r.symbol, r.sector))

/-- Model of `.set_index('symbol')['sector'].to_dict()` — building the dict walks the
deduplicated pairs in order, so a symbol listed under several sectors keeps
the *last* such pair. -/
def tickerSector (recs : List HRec) (t : String) : Option String :=
  (((pairsFirst recs).filter fun p => decide (p.1 = t)).getLast?).map fun p => p.2

/-- The dict's keys: each distinct symbol once, in first-appearance order. -/
def symbolsFirst (recs : List HRec) : List String :=
  dedupFirst (recs.map fun r => r.symbol)

/-- Model of `[t for t, sec in ticker_sector.items() if sec == s]`. -/
def sectorTickers (recs : List HRec) (s : String) : List String :=
  (symbolsFirst recs).filter fun t => decide (tickerSector recs t = some s)

/-- Model of `stocks_per_sector[s] = len(tickers1)`. -/
def stocks_per_sector (recs : List HRec) (s : String) : Nat :=
  (sectorTickers recs s).length

/-- Lines 58–67 for one sector pair: every cross correlation
`returns[t1].corr(returns[t2])` with a non-`NaN` value.  `corr` abstracts
the Pearson correlation of the aligned simple-return columns (`none` =
`NaN`, e.g. a zero-variance series); the `t not in returns.columns` guard
of the code never fires — `pct_change().dropna()` drops rows, never
columns, so the return table keeps every pivot column. -/
def corrValuesOf (recs : List HRec) (corr : String → String → Option ℚ)
    (s1 s2 : String) : List ℚ :=
  ((sectorTickers recs s1).map fun t1 =>
    (sectorTickers recs s2).filterMap fun t2 => corr t1 t2).flatten

/-- Line 69: the rounded mean of the pair's correlations, `0.0` when none. -/
def avgPairCorr (recs : List HRec) (corr : String → String → Option ℚ)
    (s1 s2 : String) : ℚ :=
  let v := corrValuesOf recs corr s1 s2
  if v.isEmpty then 0 else roundTo 4 (listMean v)

/-- Lines 44–71: entry `(i, j)` of `corr_matrix` — `1.0` on the diagonal,
the pair average mirrored across it (the code fills `i < j` and copies). -/
def corrMatrixEntry (recs : List HRec) (corr : String → String → Option ℚ)
    (i j : Nat) : ℚ :=
  if i = j then 1
  else if i < j then
    avgPairCorr recs corr ((sectorsSorted recs).getD i default) ((sectorsSorted recs).getD j default)
  else
    avgPairCorr recs corr ((sectorsSorted recs).getD j default) ((sectorsSorted recs).getD i default)

/-! ## The optimize path (`/portfolio/optimize`)

`main.py` calls `PortfolioService.optimize(data, linkage_method,
risk_free_rate)`, but no `optimize` method exists under `src/` — the HRP
allocator of spec §4.5 is code of the repository that is not in the
snapshot.  The definitions below marked “Modelled from the spec” follow
§4.5's words: wide pivot, drop columns with any gap, *simple* returns,
hierarchical-risk-parity weights rounded to 4 decimals, and the metric
recomputation on simple returns with those weights. -/

/-- The simple-return series of column `s` over the full pivot index
(`pct_change().dropna()` on a gap-free column). -/
def simpleRets (rows : List (String × Nat × ℚ)) (s : String) : List ℚ :=
  (List.range ((tblDates rows).length - 1)).map fun i => retRatio rows (i + 1) s - 1

/-- Sample variance with `ddof = 1` (pandas default); `0` (never hit below)
when fewer than two points. -/
def sampleVar (l : List ℚ) : ℚ :=
  ((l.map fun x => (x - listMean l) ^ 2).sum) / ((l.length : ℚ) - 1)

/-- Sample covariance with `ddof = 1` of two aligned series. -/
def sampleCov (l1 l2 : List ℚ) : ℚ :=
  ((List.zipWith (fun x y => (x - listMean l1) * (y - listMean l2)) l1 l2).sum) /
    ((l1.length : ℚ) - 1)

/-- Modelled from the spec (§4.5, step 4, two surviving assets): recursive
bisection splits `[a, b]` into the singletons `{a}`, `{b}` and allocates
inversely proportional to their variances —
`w_a = 1 − v_a/(v_a+v_b) = v_b/(v_a+v_b)`.  (With two leaves the dendrogram
order does not affect the resulting weights.) -/
def hrpWeights2 (v0 v1 : ℚ) : ℚ × ℚ := (v1 / (v0 + v1), v0 / (v0 + v1))

/-- Modelled from the spec (§4.5): the HRP weight of each symbol, rounded to
4 decimals, for the case of exactly two assets surviving the column drop;
the spec's general dendrogram (`≥ 3` assets) is not needed by the theorems
below and is left unmodelled (any other shape yields weight `0` here). -/
def optimizeWeights (rows : List (String × Nat × ℚ)) : String → ℚ := fun s =>
  match completeSymbols rows with
  | [s0, s1] =>
    let v0 := sampleVar (simpleRets rows s0)
    let v1 := sampleVar (simpleRets rows s1)
    if s = s0 then roundTo 4 (hrpWeights2 v0 v1).1
    else if s = s1 then roundTo 4 (hrpWeights2 v0 v1).2
    else 0
  | _ => 0

/-- Modelled from the spec (§4.5 → §4.4 with simple returns): annualized
expected return `Σ w_s · mean(simple returns of s) · 252 · 100`, rounded to
2 decimals. -/
def simpleMetricsER (rows : List (String × Nat × ℚ)) (w : String → ℚ) : ℚ :=
  roundTo 2 (((completeSymbols rows).map fun s =>
    w s * (listMean (simpleRets rows s) * 252 * 100)).sum)

/-- Modelled from the spec: the expected return the optimize path reports —
the §4.4-equivalent computation on simple returns, at the HRP weights. -/
def optimizeER (rows : List (String × Nat × ℚ)) : ℚ :=
  simpleMetricsER rows (optimizeWeights rows)

/-- Round-half-up to `k` decimals on `ℝ` (`Real.log`/`Real.sqrt` make the
log-return metrics real-valued, hence noncomputable). -/
noncomputable def roundToR (k : Nat) (x : ℝ) : ℝ := (round (x * 10 ^ k) : ℤ) / 10 ^ k

/-- Modelled from the spec (§4.5 → §4.4 with simple returns): annualized
volatility `sqrt(w·Σ·w × 252) × 100`, rounded to 2 decimals. -/
noncomputable def simpleMetricsVol (rows : List (String × Nat × ℚ)) (w : String → ℚ) : ℝ :=
  let syms := completeSymbols rows
  let pv : ℚ := (syms.map fun si =>
    (syms.map fun sj => w si * w sj * sampleCov (simpleRets rows si) (simpleRets rows sj) * 252).sum).sum
  roundToR 2 (Real.sqrt (pv : ℝ) * 100)

/-- Modelled from the spec: the volatility the optimize path reports. -/
noncomputable def optimizeVol (rows : List (String × Nat × ℚ)) : ℝ :=
  simpleMetricsVol rows (optimizeWeights rows)

/-- Model of `returns.mean()` for column `s` in `calculate_metrics` (line 53's mean
before annualization): the mean over the kept rows of
`np.log(pivot / pivot.shift(1))`. -/
noncomputable def logMeanOf (rows : List (String × Nat × ℚ)) (s : String) : ℝ :=
  ((keptRows rows).map fun t => Real.log ((retRatio rows t s : ℚ) : ℝ)).sum /
    ((keptRows rows).length : ℝ)

/-- Model of the `expected_return` of `calculate_metrics` (lines 48–58, 80):
`round(weights · (returns.mean() * 252 * 100), 2)`, log returns. -/
noncomputable def metricsER (recs : List WRec) : ℝ :=
  roundToR 2 (((tblSymbols (wrows recs)).map fun s =>
    ((weightsOf recs s : ℚ) : ℝ) * (logMeanOf (wrows recs) s * 252 * 100)).sum)

def exOptRows : List (String × Nat × ℚ) :=
  [("A", 1, 100), ("A", 2, 110), ("A", 3, 121),
   ("B", 1, 100), ("B", 2, 200), ("B", 3, 100)]




/-! ## Concrete inputs used by the counterexamples and witnesses -/

def exC1good : List PriceRec := [⟨"A", 1, 100⟩, ⟨"A", 2, 200⟩]

def exC1 : List PriceRec := [⟨"A", 2, 200⟩, ⟨"A", 1, 100⟩]

def exC2good : List WRec :=
  [⟨"A", 1, 100, 49/100⟩, ⟨"A", 2, 110, 49/100⟩,
   ⟨"B", 1, 100, 49/100⟩, ⟨"B", 2, 120, 49/100⟩]

def exC7 : List (Nat × ℚ) := [(1, 100), (2, 50), (3, 51)]

def exC10 : List SRec :=
  [⟨"MOEX", 1, 100, none, none⟩, ⟨"A", 1, 90, some 5, some 60000000⟩]

def exC8moex : List (Nat × ℚ) := [(1, 100), (2, 90)]

def exC8stock : List SRec :=
  [⟨"X", 1, 100, none, some 60000000⟩, ⟨"X", 2, 95, none, some 60000000⟩]

def exC8div : List SRec :=
  [⟨"X", 1, 100, some 3, some 60000000⟩, ⟨"X", 2, 95, some 4, some 60000000⟩]

def exC6 : List HRec :=
  [⟨"GAZP", 1, 100, "Energy"⟩, ⟨"SBER", 1, 200, "Banks"⟩,
   ⟨"GAZP", 2, 110, "Energy"⟩, ⟨"SBER", 2, 210, "Banks"⟩]

def exOptW : List WRec :=
  [⟨"A", 1, 100, 1⟩, ⟨"A", 2, 110, 1⟩, ⟨"A", 3, 121, 1⟩,
   ⟨"B", 1, 100, 0⟩, ⟨"B", 2, 200, 0⟩, ⟨"B", 3, 100, 0⟩]

def exC3 : List RankIn :=
  [⟨"S0", some 226⟩, ⟨"S1", some 226⟩, ⟨"S2", some 179⟩, ⟨"S3", some 219⟩,
   ⟨"S4", some 112⟩, ⟨"S5", some 206⟩, ⟨"S6", some 148⟩, ⟨"S7", some 240⟩,
   ⟨"S8", some 262⟩, ⟨"S9", some 121⟩, ⟨"S10", some 285⟩, ⟨"S11", some 133⟩,
   ⟨"S12", some 103⟩, ⟨"S13", some 202⟩, ⟨"S14", some 273⟩, ⟨"S15", some 180⟩,
   ⟨"S16", some 100⟩]

def exC3small : List RankIn :=
  [⟨"X", some 5⟩, ⟨"Y", some 7⟩, ⟨"Z", some 5⟩, ⟨"W", none⟩]

/-! ## Helper lemmas -/

theorem qfloor_eq_floor (q : ℚ) : qfloor q = ⌊q⌋ := Rat.floor_def.symm

theorem roundTo_eq (k : Nat) (x : ℚ) :
    roundTo k x = ((round (x * 10 ^ k) : ℤ) : ℚ) / 10 ^ k := by
  rw [roundTo, qfloor_eq_floor, round_eq]

theorem roundTo_mono (k : Nat) {x y : ℚ} (h : x ≤ y) : roundTo k x ≤ roundTo k y := by
  rw [roundTo_eq, roundTo_eq]
  have hp : (0 : ℚ) < 10 ^ k := by positivity
  apply (div_le_div_iff_of_pos_right hp).mpr
  have : round (x * 10 ^ k) ≤ round (y * 10 ^ k) := by
    rw [round_eq, round_eq]
    exact Int.floor_mono (by nlinarith)
  exact_mod_cast this

theorem roundToR_le (k : Nat) (x : ℝ) : roundToR k x ≤ x + 1 / 10 ^ k := by
  rw [roundToR, round_eq]
  have hp : (0 : ℝ) < 10 ^ k := by positivity
  rw [div_le_iff₀ hp]
  have h1 : ((⌊x * 10 ^ k + 1 / 2⌋ : ℤ) : ℝ) ≤ x * 10 ^ k + 1 / 2 := Int.floor_le _
  have : (x + 1 / 10 ^ k) * 10 ^ k = x * 10 ^ k + 1 := by field_simp
  nlinarith

theorem mem_dedupFirstAux [DecidableEq α] {a : α} :
    ∀ (seen l : List α), a ∈ dedupFirstAux seen l ↔ a ∈ l ∧ a ∉ seen
  | seen, [] => by simp [dedupFirstAux]
  | seen, x :: xs => by
    by_cases hx : x ∈ seen
    · rw [dedupFirstAux, if_pos hx, mem_dedupFirstAux seen xs]
      constructor
      · rintro ⟨h1, h2⟩
        exact ⟨List.mem_cons_of_mem _ h1, h2⟩
      · rintro ⟨h1, h2⟩
        rcases List.mem_cons.mp h1 with h | h
        · exact absurd (h ▸ hx) h2
        · exact ⟨h, h2⟩
    · rw [dedupFirstAux, if_neg hx]
      simp only [List.mem_cons, mem_dedupFirstAux (x :: seen) xs]
      constructor
      · rintro (h | ⟨h1, h2⟩)
        · exact ⟨Or.inl h, h ▸ hx⟩
        · exact ⟨Or.inr h1, fun hc => h2 (Or.inr hc)⟩
      · rintro ⟨h1 | h1, h2⟩
        · exact Or.inl h1
        · by_cases hax : a = x
          · exact Or.inl hax
          · refine Or.inr ⟨h1, fun hc => ?_⟩
            rcases hc with h | h
            · exact hax h
            · exact h2 h

theorem mem_dedupFirst [DecidableEq α] {a : α} {l : List α} :
    a ∈ dedupFirst l ↔ a ∈ l := by
  rw [dedupFirst, mem_dedupFirstAux]
  simp

theorem nodup_dedupFirstAux [DecidableEq α] :
    ∀ (seen l : List α), (dedupFirstAux seen l).Nodup
  | _, [] => List.nodup_nil
  | seen, x :: xs => by
    by_cases hx : x ∈ seen
    · rw [dedupFirstAux, if_pos hx]
      exact nodup_dedupFirstAux seen xs
    · rw [dedupFirstAux, if_neg hx]
      rw [List.nodup_cons]
      refine ⟨fun hc => ?_, nodup_dedupFirstAux (x :: seen) xs⟩
      exact ((mem_dedupFirstAux _ _).mp hc).2 (List.mem_cons_self x seen)

theorem nodup_dedupFirst [DecidableEq α] (l : List α) : (dedupFirst l).Nodup :=
  nodup_dedupFirstAux [] l

theorem filter_eq_cons_of_find? {p : α → Bool} :
    ∀ {l : List α} {f : α}, l.find? p = some f → ∃ l2, l.filter p = f :: l2
  | [], _, h => by simp at h
  | a :: l, f, h => by
    by_cases hp : p a
    · rw [List.find?_cons_of_pos _ hp] at h
      cases h
      exact ⟨l.filter p, List.filter_cons_of_pos hp⟩
    · rw [List.find?_cons_of_neg _ hp] at h
      obtain ⟨l2, hl2⟩ := filter_eq_cons_of_find? h
      exact ⟨l2, by rw [List.filter_cons_of_neg hp, hl2]⟩

theorem sum_map_add_nat (l : List β) (g h : β → ℕ) :
    (l.map fun s => g s + h s).sum = (l.map g).sum + (l.map h).sum := by
  induction l with
  | nil => rfl
  | cons x xs ih => simp [ih]; omega

theorem sum_indicator_zero [DecidableEq β] (f : Option β) (keys : List β)
    (hnot : ∀ s ∈ keys, f ≠ some s) :
    (keys.map fun s => if f = some s then (1 : ℕ) else 0).sum = 0 := by
  induction keys with
  | nil => rfl
  | cons k ks ih =>
    simp only [List.map_cons, List.sum_cons,
      if_neg (hnot k (List.mem_cons_self _ _)), Nat.zero_add]
    exact ih fun s hs => hnot s (List.mem_cons_of_mem _ hs)

theorem sum_indicator_one [DecidableEq β] (f : Option β) (keys : List β)
    (hnd : keys.Nodup) (sx : β) (hsx : sx ∈ keys) (hfx : f = some sx) :
    (keys.map fun s => if f = some s then (1 : ℕ) else 0).sum = 1 := by
  induction keys with
  | nil => simp at hsx
  | cons k ks ih =>
    rw [List.nodup_cons] at hnd
    rcases List.mem_cons.mp hsx with h | h
    · subst h
      simp only [List.map_cons, List.sum_cons, if_pos hfx]
      rw [sum_indicator_zero f ks fun s hs hc => hnd.1 (by
        have : s = sx := by rw [hfx] at hc; exact (Option.some_inj.mp hc).symm
        exact this ▸ hs)]
    · have hne : f ≠ some k := fun hc => by
        have : k = sx := by rw [hfx] at hc; exact Option.some_inj.mp hc.symm
        exact hnd.1 (this ▸ h)
      simp only [List.map_cons, List.sum_cons, if_neg hne, Nat.zero_add]
      exact ih hnd.2 h

theorem sum_filter_length_eq [DecidableEq β] (keys : List β) (hnd : keys.Nodup)
    (f : α → Option β) :
    ∀ xs : List α, (∀ x ∈ xs, ∃ s ∈ keys, f x = some s) →
      (keys.map fun s => (xs.filter fun x => decide (f x = some s)).length).sum = xs.length
  | [], _ => by
    simp only [List.filter_nil, List.length_nil]
    exact List.sum_eq_zero fun x hx => by
      rcases List.mem_map.mp hx with ⟨s, _, rfl⟩
      rfl
  | x :: xs, hcov => by
    obtain ⟨sx, hsx, hfx⟩ := hcov x (List.mem_cons_self _ _)
    have hstep : ∀ s ∈ keys,
        ((x :: xs).filter fun y => decide (f y = some s)).length
          = (if f x = some s then 1 else 0)
            + (xs.filter fun y => decide (f y = some s)).length := by
      intro s _
      by_cases h : f x = some s
      · rw [List.filter_cons_of_pos (by simpa), if_pos h, List.length_cons]
        omega
      · rw [List.filter_cons_of_neg (by simpa), if_neg h]
        omega
    rw [List.map_congr_left hstep, sum_map_add_nat,
      sum_indicator_one (f x) keys hnd sx hsx hfx,
      sum_filter_length_eq keys hnd f xs fun y hy => hcov y (List.mem_cons_of_mem _ hy)]
    simp [Nat.add_comm]

/-! ## Claim theorems -/

unseal Rat.add Rat.mul Rat.inv Rat.sub in
/-- C9 (confirmed): for every internal average correlation, the returned
`diversification_index` is the 4-decimal rounding of
`clamp(1 − average_correlation, 0, 1)`, and it always lies in `[0, 1]`,
whatever the sign or magnitude of the correlations. -/
theorem c9_div_index_clamp (avg_corr : ℚ) :
    div_index avg_corr = roundTo 4 (clamp01 (1 - avg_corr))
      ∧ 0 ≤ div_index avg_corr ∧ div_index avg_corr ≤ 1 := by
  refine ⟨rfl, ?_, ?_⟩
  · have h0 : roundTo 4 0 = 0 := by decide
    have hle : (0 : ℚ) ≤ max 0 (min 1 (1 - avg_corr)) := le_max_left _ _
    calc (0 : ℚ) = roundTo 4 0 := h0.symm
    _ ≤ div_index avg_corr := roundTo_mono 4 hle
  · have h1 : roundTo 4 1 = 1 := by decide
    have hle : max 0 (min 1 (1 - avg_corr)) ≤ 1 :=
      max_le (by norm_num) (min_le_left _ _)
    calc div_index avg_corr ≤ roundTo 4 1 := roundTo_mono 4 hle
    _ = 1 := h1

unseal Rat.add Rat.mul Rat.inv Rat.sub in
/-- C2, counterexample: an input whose per-symbol weights sum to `1.000005`
— farther than `1e-6` from `1` — passes every validation of
`calculate_metrics` (the `np.isclose` check accepts it), refuting “raises
whenever the sum deviates by more than 1e-6”. -/
theorem c2_counterexample :
    1 / 1000000 < |totalWeight exC2 - 1| ∧ metricsError exC2 = none := by decide

/-- C2 (amended): on non-empty input with per-symbol-constant weights,
`calculate_metrics` raises the weight-sum `ValueError` exactly when the sum
is farther from `1` than numpy's default `isclose` margin
`atol + rtol·|1.0| = 1e-8 + 1e-5` (not `1e-6`). -/
theorem c2_weight_sum_check (recs : List WRec) (hne : recs ≠ [])
    (hconst : constancyOk recs = true) :
    metricsError recs = some .badWeightSum ↔ npIscloseTol < |totalWeight recs - 1| := by
  unfold metricsError
  rw [if_neg (by simpa [List.isEmpty_iff] using hne), if_neg (by simp [hconst])]
  by_cases h : weightSumOk recs
  · rw [if_neg (by simp [h])]
    constructor
    · intro hc
      split_ifs at hc <;> simp at hc
    · intro hgt
      have hle : |totalWeight recs - 1| ≤ npIscloseTol := by
        simpa [weightSumOk] using h
      exact absurd hgt (not_lt.mpr hle)
  · rw [if_pos (by simpa using h)]
    simp only [weightSumOk, decide_eq_true_eq] at h
    simp [not_le.mp h]


unseal Rat.add Rat.mul Rat.inv Rat.sub in
theorem c2_weight_sum_check_witness :
    metricsError exC2good = some .badWeightSum :=
  (c2_weight_sum_check exC2good (by decide) (by decide)).mpr (by decide)

unseal Rat.add Rat.mul Rat.inv Rat.sub in
/-- C4, counterexample: symbol `B` is missing date 3 of the pivot, yet it is
never dropped — `dropna()` drops *rows* — and its return on the surviving
row 1 feeds the metrics (which complete without error), refuting “every
symbol with a missing value is dropped before computing returns”. -/
theorem c4_counterexample :
    ("B" ∈ tblSymbols (wrows exC4) ∧ "B" ∉ completeSymbols (wrows exC4))
      ∧ (1, "B") ∈ usedReturnCells (wrows exC4)
      ∧ keptRows (wrows exC4) = [1]
      ∧ metricsError exC4 = none := by decide

/-- C4 (amended): after the pivot, no column is ever dropped — the columns
of the returns table are exactly the weighted symbols — and `dropna()`
instead drops every date row `t` on which any symbol lacks a price at `t`
or `t−1`; the cells feeding the metrics are all columns at the kept rows. -/
theorem c4_dropna_rows (rows : List (String × Nat × ℚ)) :
    (∀ t, t ∈ keptRows rows ↔
        t < (tblDates rows).length ∧ 0 < t ∧
          ∀ s ∈ tblSymbols rows, retCellDefined rows t s = true)
      ∧ (∀ p : Nat × String,
          p ∈ usedReturnCells rows ↔ p.1 ∈ keptRows rows ∧ p.2 ∈ tblSymbols rows)
      ∧ (∀ s, s ∈ tblSymbols rows ↔ s ∈ rows.map fun r => r.1) := by
  refine ⟨?_, ?_, ?_⟩
  · intro t
    simp only [keptRows, List.mem_filter, List.mem_range, Bool.and_eq_true,
      decide_eq_true_eq, List.all_eq_true]
  · intro p
    simp only [usedReturnCells, List.mem_flatten, List.mem_map]
    constructor
    · rintro ⟨l, ⟨t, ht, rfl⟩, hp⟩
      rcases List.mem_map.mp hp with ⟨s, hs, rfl⟩
      exact ⟨ht, hs⟩
    · rintro ⟨h1, h2⟩
      exact ⟨(tblSymbols rows).map fun s => (p.1, s), ⟨p.1, h1, rfl⟩,
        List.mem_map.mpr ⟨p.2, h2, rfl⟩⟩
  · intro s
    simp [tblSymbols, List.mem_insertionSort, mem_dedupFirst]


unseal Rat.add Rat.mul Rat.inv Rat.sub in
/-- C1, counterexample: with symbol A's records listed out of date order
(date 2 close 200 first, date 1 close 100 second), the code rebases against
the *first-listed* close 200, producing 50 at A's earliest date instead of
100 — the output disagrees with the spec's earliest-observation rebasing,
so the result does depend on the record order. -/
theorem c1_counterexample :
    normalize_prices_from_json exC1 = [(1, 50), (2, 100)]
      ∧ normalize_spec exC1 = [(1, 100), (2, 200)]
      ∧ normalize_prices_from_json exC1 ≠ normalize_spec exC1 := by decide

/-- C1 (amended): the code rebases each record against the close of the
symbol's *first-listed* record; when that record also carries the symbol's
minimal date (e.g. per-symbol date-sorted input), it is the earliest
observation, every record of the symbol is rebased as
`close / close_0 × 100`, and the value at the first record is exactly 100. -/
theorem c1_first_rebase (recs : List PriceRec) (s : String) (f : PriceRec)
    (hf : recs.find? (fun r => r.symbol = s) = some f)
    (hmin : ∀ r ∈ recs, r.symbol = s → f.date ≤ r.date)
    (hc : f.close ≠ 0) :
    earliestClose recs s = firstClose recs s
      ∧ normalizedRow recs f = 100
      ∧ ∀ r ∈ recs, r.symbol = s →
          normalizedRow recs r = r.close / earliestClose recs s * 100 := by
  have hfs : f.symbol = s := by simpa using List.find?_some hf
  have hfc : firstClose recs s = f.close := by
    unfold firstClose
    rw [hf]
  obtain ⟨l2, hfil⟩ := filter_eq_cons_of_find? hf
  have hmem2 : ∀ b ∈ l2, f.date ≤ b.date := by
    intro b hb
    have hbf : b ∈ recs.filter (fun r => r.symbol = s) := by
      rw [hfil]
      exact List.mem_cons_of_mem _ hb
    have hm := List.mem_filter.mp hbf
    exact hmin b hm.1 (by simpa using hm.2)
  have hec : earliestClose recs s = f.close := by
    unfold earliestClose
    rw [hfil, List.insertionSort_cons (fun a b : PriceRec => a.date ≤ b.date) hmem2]
    rfl
  refine ⟨hec.trans hfc.symm, ?_, ?_⟩
  · unfold normalizedRow
    rw [hfs, hfc, div_self hc]
    norm_num
  · intro r _ hrs
    unfold normalizedRow
    rw [hrs, hfc, hec]


unseal Rat.add Rat.mul Rat.inv Rat.sub in
theorem c1_first_rebase_witness :
    earliestClose exC1good ("A") = firstClose exC1good ("A")
      ∧ normalizedRow exC1good ⟨"A", 1, 100⟩ = 100 := by
  have h := c1_first_rebase exC1good ("A") ⟨"A", 1, 100⟩ (by decide) (by decide) (by decide)
  exact ⟨h.1, h.2.1⟩

/-- C7 (confirmed): a date is listed by `find_stress_days` exactly when it
sits at a position `t ≥ 1` of the benchmark series whose day-over-day
percentage return is `≤ threshold`; and when the series' dates are distinct
its first date is never a stress day (its return is `NaN` and the code
masks `returns.iloc[1:]` only). -/
theorem c7_stress_days (series : List (Nat × ℚ)) (threshold : ℚ)
    (hnd : (series.map fun p => p.1).Nodup) :
    (∀ d, d ∈ find_stress_days series threshold ↔
        ∃ t, 1 ≤ t ∧ t < series.length ∧ (series.getD t (0, 0)).1 = d ∧
          pctRet (series.map fun p => p.2) t ≤ threshold)
      ∧ (0 < series.length →
          (series.getD 0 (0, 0)).1 ∉ find_stress_days series threshold) := by
  have hmem : ∀ d, d ∈ find_stress_days series threshold ↔
      ∃ t, 1 ≤ t ∧ t < series.length ∧ (series.getD t (0, 0)).1 = d ∧
        pctRet (series.map fun p => p.2) t ≤ threshold := by
    intro d
    simp only [find_stress_days, List.mem_map, List.mem_filter, List.mem_range,
      Bool.and_eq_true, decide_eq_true_eq]
    constructor
    · rintro ⟨t, ⟨ht, h1, h2⟩, rfl⟩
      exact ⟨t, h1, ht, rfl, h2⟩
    · rintro ⟨t, h1, ht, rfl, h2⟩
      exact ⟨t, ⟨ht, h1, h2⟩, rfl⟩
  refine ⟨hmem, fun h0 hc => ?_⟩
  obtain ⟨t, h1, ht, heq, _⟩ := (hmem _).mp hc
  have hDt : series.getD t (0, 0) = series[t] := by
    rw [List.getD_eq_getElem?_getD, List.getElem?_eq_getElem ht]
    rfl
  have hD0 : series.getD 0 (0, 0) = series[0] := by
    rw [List.getD_eq_getElem?_getD, List.getElem?_eq_getElem h0]
    rfl
  rw [hDt, hD0] at heq
  have ht' : t < (series.map fun p => p.1).length := by simpa using ht
  have h0' : 0 < (series.map fun p => p.1).length := by simpa using h0
  have : (series.map fun p => p.1)[t] = (series.map fun p => p.1)[0] := by
    simp only [List.getElem_map]
    exact heq
  have := (List.Nodup.getElem_inj_iff hnd).mp this
  omega


unseal Rat.add Rat.mul Rat.inv Rat.sub in
theorem c7_stress_days_witness :
    2 ∈ find_stress_days exC7 (-1) ∧ 1 ∉ find_stress_days exC7 (-1) := by
  have h := c7_stress_days exC7 (-1) (by decide)
  refine ⟨(h.1 2).mpr ⟨1, by decide, by decide, by decide, by decide⟩, h.2 (by decide)⟩

/-- C10 (confirmed): on non-empty input `prepare_data` raises “no MOEX
data” exactly when no record has symbol MOEX, raises “no stock data”
exactly when every record has symbol MOEX, and otherwise succeeds with the
MOEX rows as the benchmark series and all remaining rows as candidates. -/
theorem c10_moex_split (recs : List SRec) (hne : recs ≠ []) :
    (prepare_data recs = .error .noMoex ↔ ∀ r ∈ recs, r.symbol ≠ "MOEX")
      ∧ (prepare_data recs = .error .noStocks ↔ ∀ r ∈ recs, r.symbol = "MOEX")
      ∧ ((∃ r ∈ recs, r.symbol = "MOEX") → (∃ r ∈ recs, r.symbol ≠ "MOEX") →
          prepare_data recs = .ok (moexRows recs, stockRows recs)) := by
  have hchar1 : (moexRows recs).isEmpty = true ↔ ∀ r ∈ recs, r.symbol ≠ "MOEX" := by
    simp [moexRows, List.isEmpty_iff, List.map_eq_nil_iff, List.filter_eq_nil_iff]
  have hchar2 : (stockRows recs).isEmpty = true ↔ ∀ r ∈ recs, r.symbol = "MOEX" := by
    simp [stockRows, List.isEmpty_iff, List.filter_eq_nil_iff]
  unfold prepare_data
  rw [if_neg (by simpa [List.isEmpty_iff] using hne)]
  by_cases hm : ∀ r ∈ recs, r.symbol ≠ "MOEX"
  · rw [if_pos (hchar1.mpr hm)]
    obtain ⟨r0, hr0⟩ := List.exists_mem_of_ne_nil recs hne
    refine ⟨iff_of_true rfl hm, ?_, ?_⟩
    · constructor
      · intro hc
        exact absurd hc (by simp)
      · intro hall
        exact absurd (hall r0 hr0) (hm r0 hr0)
    · rintro ⟨r, hr, hch⟩ _
      exact absurd hch (hm r hr)
  · rw [if_neg fun hc => hm (hchar1.mp hc)]
    by_cases hs : ∀ r ∈ recs, r.symbol = "MOEX"
    · rw [if_pos (hchar2.mpr hs)]
      refine ⟨?_, iff_of_true rfl hs, ?_⟩
      · constructor
        · intro hc
          exact absurd hc (by simp)
        · intro hall
          exact absurd hall hm
      · rintro _ ⟨r, hr, hch⟩
        exact absurd (hs r hr) hch
    · rw [if_neg fun hc => hs (hchar2.mp hc)]
      refine ⟨?_, ?_, fun _ _ => rfl⟩
      · constructor
        · intro hc
          exact absurd hc (by simp)
        · intro hall
          exact absurd hall hm
      · constructor
        · intro hc
          exact absurd hc (by simp)
        · intro hall
          exact absurd hall hs


unseal Rat.add Rat.mul Rat.inv Rat.sub in
theorem c10_moex_split_witness :
    prepare_data exC10 = .ok (moexRows exC10, stockRows exC10) :=
  (c10_moex_split exC10 (by decide)).2.2 (by decide) (by decide)



unseal Rat.add Rat.mul Rat.inv Rat.sub in
/-- C8, counterexample: a candidate scored through the ranking pipeline
(dividend column present, as `prepare_data` guarantees) whose rows carry no
dividend value gets `dividend_yield = NaN` — and a `NaN` score — not the
claimed `0.0`; the code's `0.0` fallback fires only when the whole
`AvgDividend` column is absent from the table. -/
theorem c8_counterexample :
    calculate_anti_crisis_score exC8stock [1, 2] exC8moex true
        = some ⟨5, 1, none, 60, none⟩
      ∧ (none : Option ℚ) ≠ some 0 := by decide

unseal Rat.add Rat.mul Rat.inv Rat.sub in
/-- C8 (amended): when the dividend column is present (always the case via
`run_analysis`), a scored candidate's `dividend_yield` is its *last input
row's* dividend cell rounded to 2 decimals — `NaN` when that cell is
missing; the `0.0` fallback applies exactly when the whole column is
absent from the table. -/
theorem c8_dividend_yield (stock : List SRec) (stress : List Nat)
    (moex : List (Nat × ℚ)) :
    (∀ out, calculate_anti_crisis_score stock stress moex true = some out →
        out.dividend_yield = (stock.getLast?.bind fun r => r.avg_dividend).map (roundTo 2))
      ∧ (∀ out, calculate_anti_crisis_score stock stress moex false = some out →
          out.dividend_yield = some 0) := by
  have h0 : roundTo 2 0 = 0 := by decide
  constructor
  · intro out hout
    simp only [calculate_anti_crisis_score] at hout
    by_cases hlen : (mergedRows stock stress moex).length < 2
    · rw [if_pos hlen] at hout
      exact absurd hout (by simp)
    · rw [if_neg hlen] at hout
      simp only [if_true] at hout
      obtain rfl := (Option.some_inj.mp hout).symm
      cases hl : stock.getLast? <;> simp [hl]
  · intro out hout
    simp only [calculate_anti_crisis_score] at hout
    by_cases hlen : (mergedRows stock stress moex).length < 2
    · rw [if_pos hlen] at hout
      exact absurd hout (by simp)
    · rw [if_neg hlen] at hout
      obtain rfl := (Option.some_inj.mp hout).symm
      simp [h0]


unseal Rat.add Rat.mul Rat.inv Rat.sub in
theorem c8_dividend_yield_witness :
    (⟨5, 1, some 4, 60, some 114⟩ : ScoreOut).dividend_yield
      = (exC8div.getLast?.bind fun r => r.avg_dividend).map (roundTo 2) :=
  (c8_dividend_yield exC8div [1, 2] exC8moex).1 ⟨5, 1, some 4, 60, some 114⟩ (by decide)

theorem pairwise_enum_snd {R : α → α → Prop} {l : List α} (h : l.Pairwise R) :
    l.enum.Pairwise fun p q => R p.2 q.2 := by
  have h2 : (l.enum.map Prod.snd).Pairwise R := by
    rw [show l.enum = l.enumFrom 0 from rfl, List.enumFrom_map_snd]
    exact h
  exact (List.pairwise_map).mp h2

theorem enum_ranks_eq (l : List α) :
    l.enum.map (fun p => p.1 + 1) = List.range' 1 l.length := by
  have h1 : l.enum.map (fun p => p.1 + 1)
      = (l.enum.map Prod.fst).map fun x => 1 + x := by
    rw [List.map_map]
    exact List.map_congr_left fun a _ => Nat.add_comm _ _
  rw [h1, show l.enum = l.enumFrom 0 from rfl, List.enumFrom_map_fst,
    List.map_add_range']

theorem getD_map_of_lt (l : List α) (g : α → β) {a : Nat} (ha : a < l.length)
    (d : β) (d2 : α) : (l.map g).getD a d = g (l.getD a d2) := by
  rw [List.getD_eq_getElem?_getD, List.getD_eq_getElem?_getD,
    List.getElem?_eq_getElem (by simpa using ha), List.getElem?_eq_getElem ha]
  simp

theorem getD_mem_of_lt (l : List α) {a : Nat} (ha : a < l.length) (d : α) :
    l.getD a d ∈ l := by
  rw [List.getD_eq_getElem?_getD, List.getElem?_eq_getElem ha, Option.getD_some]
  exact List.getElem_mem ha

theorem getD_eq_get_of_lt (l : List α) {a : Nat} (ha : a < l.length) (d : α) :
    l.getD a d = l.get ⟨a, ha⟩ := by
  rw [List.getD_eq_getElem?_getD, List.getElem?_eq_getElem ha, Option.getD_some]
  rfl

theorem mem_kernel_lt {kernel : List ℚ → List Nat} (hker : IsArgsortKernel kernel)
    (w : List ℚ) {k : Nat} (hk : k ∈ kernel w) : k < w.length :=
  List.mem_range.mp ((hker w).1.mem_iff.mp hk)

theorem mem_rIdxOf_isSome (scores : List (Option ℚ)) (i : Nat)
    (hi : i ∈ rIdxOf scores) : (scores.getD i none).isSome = true := by
  rw [rIdxOf, List.mem_reverse, List.mem_filter] at hi
  simpa using hi.2

theorem mem_nanIdxOf_isNone (scores : List (Option ℚ)) (i : Nat)
    (hi : i ∈ nanIdxOf scores) : (scores.getD i none).isNone = true := by
  rw [nanIdxOf, List.mem_filter] at hi
  simpa using hi.2

theorem stableArgsort_isKernel : IsArgsortKernel stableArgsort := by
  intro v
  refine ⟨List.perm_insertionSort (argLE v) (List.range v.length), ?_⟩
  have hs : (stableArgsort v).Pairwise (argLE v) :=
    List.sorted_insertionSort (argLE v) (List.range v.length)
  refine hs.imp ?_
  intro a b hab
  unfold argLE at hab
  rcases hab with h | ⟨h, _⟩
  · exact le_of_lt h
  · exact le_of_eq h

theorem mem_nargsortDesc_lt {kernel : List ℚ → List Nat}
    (hker : IsArgsortKernel kernel) (scores : List (Option ℚ)) :
    ∀ i ∈ nargsortDesc kernel scores, i < scores.length := by
  intro i hi
  rw [nargsortDesc, List.mem_append] at hi
  rcases hi with hi | hi
  · rw [List.mem_reverse] at hi
    rcases List.mem_map.mp hi with ⟨k, hk, rfl⟩
    have hklt : k < (rIdxOf scores).length := by
      have := mem_kernel_lt hker _ hk
      rwa [List.length_map] at this
    have hmem := getD_mem_of_lt _ hklt 0
    rw [rIdxOf, List.mem_reverse, List.mem_filter] at hmem
    exact List.mem_range.mp hmem.1
  · rw [nanIdxOf, List.mem_filter] at hi
    exact List.mem_range.mp hi.1

theorem nargsortDesc_desc {kernel : List ℚ → List Nat}
    (hker : IsArgsortKernel kernel) (scores : List (Option ℚ)) :
    (nargsortDesc kernel scores).Pairwise fun i j =>
      DescNaN (scores.getD i none) (scores.getD j none) := by
  have hSome : ∀ i ∈ ((kernel ((rIdxOf scores).map (fScore scores))).map
      fun k => (rIdxOf scores).getD k 0).reverse,
      (scores.getD i none).isSome = true := by
    intro i hi
    rw [List.mem_reverse] at hi
    rcases List.mem_map.mp hi with ⟨k, hk, rfl⟩
    have hklt : k < (rIdxOf scores).length := by
      have := mem_kernel_lt hker _ hk
      rwa [List.length_map] at this
    exact mem_rIdxOf_isSome _ _ (getD_mem_of_lt _ hklt 0)
  have hmapped : ((kernel ((rIdxOf scores).map (fScore scores))).map
      fun k => (rIdxOf scores).getD k 0).Pairwise
      fun i j => fScore scores i ≤ fScore scores j := by
    rw [List.pairwise_map]
    refine ((hker _).2).imp_of_mem ?_
    intro a b ha hb hab
    have halt : a < (rIdxOf scores).length := by
      have := mem_kernel_lt hker _ ha
      rwa [List.length_map] at this
    have hblt : b < (rIdxOf scores).length := by
      have := mem_kernel_lt hker _ hb
      rwa [List.length_map] at this
    have h1 : valAt ((rIdxOf scores).map (fScore scores)) a
        = fScore scores ((rIdxOf scores).getD a 0) := getD_map_of_lt _ _ halt 0 0
    have h2 : valAt ((rIdxOf scores).map (fScore scores)) b
        = fScore scores ((rIdxOf scores).getD b 0) := getD_map_of_lt _ _ hblt 0 0
    rw [h1, h2] at hab
    exact hab
  have hrev : (((kernel ((rIdxOf scores).map (fScore scores))).map
      fun k => (rIdxOf scores).getD k 0).reverse).Pairwise
      fun i j => fScore scores j ≤ fScore scores i := by
    rw [List.pairwise_reverse]
    exact hmapped
  rw [nargsortDesc, List.pairwise_append]
  refine ⟨?_, ?_, ?_⟩
  · refine hrev.imp_of_mem ?_
    intro a b ha hb hab
    rcases Option.isSome_iff_exists.mp (hSome a ha) with ⟨x, hx⟩
    rcases Option.isSome_iff_exists.mp (hSome b hb) with ⟨y, hy⟩
    have hfa : fScore scores a = x := by
      show (scores.getD a none).getD 0 = x
      rw [hx]
      rfl
    have hfb : fScore scores b = y := by
      show (scores.getD b none).getD 0 = y
      rw [hy]
      rfl
    rw [hx, hy]
    show y ≤ x
    rw [← hfa, ← hfb]
    exact hab
  · have hlt : (nanIdxOf scores).Pairwise fun a b : Nat => a < b := by
      rw [nanIdxOf]
      exact List.Pairwise.sublist (List.filter_sublist _) (List.sorted_lt_range _)
    refine hlt.imp_of_mem ?_
    intro a b ha hb _
    rw [Option.isNone_iff_eq_none.mp (mem_nanIdxOf_isNone _ _ ha),
      Option.isNone_iff_eq_none.mp (mem_nanIdxOf_isNone _ _ hb)]
    exact trivial
  · intro a ha b hb
    rcases Option.isSome_iff_exists.mp (hSome a ha) with ⟨x, hx⟩
    rw [hx, Option.isNone_iff_eq_none.mp (mem_nanIdxOf_isNone _ _ hb)]
    exact trivial

theorem nargsortDesc_stable (scores : List (Option ℚ)) :
    (nargsortDesc stableArgsort scores).Pairwise fun i j =>
      scores.getD i none = scores.getD j none → i < j := by
  have hSome : ∀ i ∈ ((stableArgsort ((rIdxOf scores).map (fScore scores))).map
      fun k => (rIdxOf scores).getD k 0).reverse,
      (scores.getD i none).isSome = true := by
    intro i hi
    rw [List.mem_reverse] at hi
    rcases List.mem_map.mp hi with ⟨k, hk, rfl⟩
    have hklt : k < (rIdxOf scores).length := by
      have := mem_kernel_lt stableArgsort_isKernel _ hk
      rwa [List.length_map] at this
    exact mem_rIdxOf_isSome _ _ (getD_mem_of_lt _ hklt 0)
  have hsorted : (stableArgsort ((rIdxOf scores).map (fScore scores))).Pairwise
      (argLE ((rIdxOf scores).map (fScore scores))) :=
    List.sorted_insertionSort _ _
  have hnd : (stableArgsort ((rIdxOf scores).map (fScore scores))).Nodup :=
    (List.perm_insertionSort _ _).nodup_iff.mpr (List.nodup_range _)
  have hties : (stableArgsort ((rIdxOf scores).map (fScore scores))).Pairwise
      fun a b => valAt ((rIdxOf scores).map (fScore scores)) a
        = valAt ((rIdxOf scores).map (fScore scores)) b → a < b := by
    refine (hsorted.and hnd).imp ?_
    intro a b hab heq
    obtain ⟨h1, hne⟩ := hab
    unfold argLE at h1
    rcases h1 with h | ⟨_, hle⟩
    · rw [heq] at h
      exact absurd h (lt_irrefl _)
    · exact lt_of_le_of_ne hle hne
  have hdec : (rIdxOf scores).Pairwise fun a b => b < a := by
    rw [rIdxOf, List.pairwise_reverse]
    exact List.Pairwise.sublist (List.filter_sublist _) (List.sorted_lt_range _)
  have hdecG : ∀ a b : Nat, a < b → b < (rIdxOf scores).length →
      (rIdxOf scores).getD b 0 < (rIdxOf scores).getD a 0 := by
    intro a b hab hb
    have ha : a < (rIdxOf scores).length := lt_trans hab hb
    rw [getD_eq_get_of_lt _ hb 0, getD_eq_get_of_lt _ ha 0]
    exact List.pairwise_iff_getElem.mp hdec a b ha hb hab
  have hmapped : ((stableArgsort ((rIdxOf scores).map (fScore scores))).map
      fun k => (rIdxOf scores).getD k 0).Pairwise
      fun i j => fScore scores i = fScore scores j → j < i := by
    rw [List.pairwise_map]
    refine hties.imp_of_mem ?_
    intro a b ha hb hab heq
    have halt : a < (rIdxOf scores).length := by
      have := mem_kernel_lt stableArgsort_isKernel _ ha
      rwa [List.length_map] at this
    have hblt : b < (rIdxOf scores).length := by
      have := mem_kernel_lt stableArgsort_isKernel _ hb
      rwa [List.length_map] at this
    have h1 : valAt ((rIdxOf scores).map (fScore scores)) a
        = fScore scores ((rIdxOf scores).getD a 0) := getD_map_of_lt _ _ halt 0 0
    have h2 : valAt ((rIdxOf scores).map (fScore scores)) b
        = fScore scores ((rIdxOf scores).getD b 0) := getD_map_of_lt _ _ hblt 0 0
    exact hdecG a b (hab (by rw [h1, h2, heq])) hblt
  have hrev : (((stableArgsort ((rIdxOf scores).map (fScore scores))).map
      fun k => (rIdxOf scores).getD k 0).reverse).Pairwise
      fun i j => scores.getD i none = scores.getD j none → i < j := by
    rw [List.pairwise_reverse]
    refine hmapped.imp ?_
    intro a b h heq
    exact h (congrArg (fun o => Option.getD o 0) heq.symm)
  rw [nargsortDesc, List.pairwise_append]
  refine ⟨hrev, ?_, ?_⟩
  · have hlt : (nanIdxOf scores).Pairwise fun a b : Nat => a < b := by
      rw [nanIdxOf]
      exact List.Pairwise.sublist (List.filter_sublist _) (List.sorted_lt_range _)
    exact hlt.imp fun {a b} h (_ : scores.getD a none = scores.getD b none) => h
  · intro a ha b hb heq
    have h1 := hSome a ha
    rw [Option.isNone_iff_eq_none.mp (mem_nanIdxOf_isNone _ _ hb)] at heq
    rw [heq] at h1
    exact absurd h1 (by simp)

unseal Rat.add Rat.mul Rat.inv Rat.sub in
/-- C3, counterexample: seventeen scored candidates — one more than numpy's
insertion-sort regime — with the tied pair S0, S1 (both score 226, S0 first
in input iteration order).  The default `kind='quicksort'` sort, numpy's
introsort modelled instruction for instruction by `npArgQuicksort`, ranks
S1 fifth and S0 sixth, while the stable rendering of the claim keeps S0
before S1: ties are NOT broken by input iteration order in general. -/
theorem c3_counterexample :
    (exC3.getD 0 ⟨"", none⟩).score = (exC3.getD 1 ⟨"", none⟩).score
      ∧ (top10Ranked npArgQuicksort exC3).map (fun o => o.ticker)
          = ["S10", "S14", "S8", "S7", "S1", "S0", "S3", "S5", "S13", "S15"]
      ∧ (top10Ranked stableArgsort exC3).map (fun o => o.ticker)
          = ["S10", "S14", "S8", "S7", "S0", "S1", "S3", "S5", "S13", "S15"]
      ∧ top10Ranked npArgQuicksort exC3 ≠ top10Ranked stableArgsort exC3 := by
  decide

/-- C3 (corrected): for every argsort kernel meeting numpy's documented
contract — in particular for the default quicksort and for every stable
kind — the ranking stage keeps at most 10 records, attaches `rank` exactly
`1..N`, and orders the kept records by score descending with `NaN` scores
last.  The claim's further promise, ties broken by input iteration order,
holds for the stable kernel `stableArgsort` (the behaviour numpy's
quicksort exhibits inside its insertion-sort regime of at most 16
candidates) but not for the quicksort kernel on larger inputs: see
`c3_counterexample`. -/
theorem c3_top10_rank :
    (∀ (kernel : List ℚ → List Nat) (results : List RankIn),
        IsArgsortKernel kernel →
          (top10Ranked kernel results).length ≤ 10
            ∧ (top10Ranked kernel results).map (fun o => o.rank)
                = List.range' 1 (top10Ranked kernel results).length
            ∧ (top10Ranked kernel results).Pairwise fun a b =>
                DescNaN a.score b.score)
      ∧ IsArgsortKernel stableArgsort
      ∧ ∀ results : List RankIn,
          (top10Sorted stableArgsort results).Pairwise
            fun p q => p.2.score = q.2.score → p.1 < q.1 := by
  refine ⟨?_, stableArgsort_isKernel, ?_⟩
  · intro kernel results hker
    refine ⟨?_, ?_, ?_⟩
    · simp only [top10Ranked, top10Sorted, List.length_map, List.enum_length,
        List.length_take]
      omega
    · have hmap : (top10Ranked kernel results).map (fun o => o.rank)
          = (top10Sorted kernel results).enum.map fun p => p.1 + 1 := by
        simp [top10Ranked, List.map_map, Function.comp]
      rw [hmap, enum_ranks_eq]
      congr 1
      simp [top10Ranked]
    · have hfull := nargsortDesc_desc hker (results.map fun r => r.score)
      have hfull2 : (nargsortDesc kernel (results.map fun r => r.score)).Pairwise
          fun i j => DescNaN (results.getD i ⟨"", none⟩).score
            (results.getD j ⟨"", none⟩).score := by
        refine hfull.imp_of_mem ?_
        intro a b ha hb hab
        have halt : a < results.length := by
          have := mem_nargsortDesc_lt hker _ a ha
          rwa [List.length_map] at this
        have hblt : b < results.length := by
          have := mem_nargsortDesc_lt hker _ b hb
          rwa [List.length_map] at this
        rwa [getD_map_of_lt results (fun r => r.score) halt none ⟨"", none⟩,
          getD_map_of_lt results (fun r => r.score) hblt none ⟨"", none⟩] at hab
      have hsv : (sortValuesDesc kernel results).Pairwise
          fun p q => DescNaN p.2.score q.2.score := by
        rw [sortValuesDesc, List.pairwise_map]
        exact hfull2
      have htake : (top10Sorted kernel results).Pairwise
          fun p q => DescNaN p.2.score q.2.score :=
        List.Pairwise.sublist (List.take_sublist _ _) hsv
      rw [top10Ranked, List.pairwise_map]
      exact pairwise_enum_snd htake
  · intro results
    have hfull := nargsortDesc_stable (results.map fun r => r.score)
    have hfull2 : (nargsortDesc stableArgsort (results.map fun r => r.score)).Pairwise
        fun i j => (results.getD i ⟨"", none⟩).score
          = (results.getD j ⟨"", none⟩).score → i < j := by
      refine hfull.imp_of_mem ?_
      intro a b ha hb hab heq
      have halt : a < results.length := by
        have := mem_nargsortDesc_lt stableArgsort_isKernel _ a ha
        rwa [List.length_map] at this
      have hblt : b < results.length := by
        have := mem_nargsortDesc_lt stableArgsort_isKernel _ b hb
        rwa [List.length_map] at this
      refine hab ?_
      rw [getD_map_of_lt results (fun r => r.score) halt none ⟨"", none⟩,
        getD_map_of_lt results (fun r => r.score) hblt none ⟨"", none⟩]
      exact heq
    have hsv : (sortValuesDesc stableArgsort results).Pairwise
        fun p q => p.2.score = q.2.score → p.1 < q.1 := by
      rw [sortValuesDesc, List.pairwise_map]
      exact hfull2
    exact List.Pairwise.sublist (List.take_sublist _ _) hsv

/-- Witness for `c3_top10_rank`: the stable kernel satisfies the argsort
contract, and the four-candidate input `exC3small` (two tied scores and a
`NaN` score) is ranked within all three bounds under it. -/
theorem c3_top10_rank_witness :
    (top10Ranked stableArgsort exC3small).length ≤ 10
      ∧ (top10Ranked stableArgsort exC3small).map (fun o => o.rank)
          = List.range' 1 (top10Ranked stableArgsort exC3small).length
      ∧ (top10Ranked stableArgsort exC3small).Pairwise fun a b =>
          DescNaN a.score b.score :=
  c3_top10_rank.1 stableArgsort exC3small stableArgsort_isKernel

/-- C6 (confirmed): for every valid input (non-empty, no repeated
(symbol, date) key — `pivot` raises otherwise) and every correlation
oracle, the sector matrix is symmetric with every diagonal entry `1.0`,
the key set is the lexicographically sorted list of the distinct sector
values, and the `stocks_per_sector` counts sum to the number of distinct
symbols of the input. -/
theorem c6_sector_matrix (recs : List HRec) (corr : String → String → Option ℚ)
    (_hne : recs ≠ [])
    (_hkeys : (recs.map fun r => (r.symbol, r.date)).Nodup) :
    (∀ i j, corrMatrixEntry recs corr i j = corrMatrixEntry recs corr j i)
      ∧ (∀ i, corrMatrixEntry recs corr i i = 1)
      ∧ ((sectorsSorted recs).Pairwise StrLE ∧ (sectorsSorted recs).Nodup
          ∧ ∀ sec, sec ∈ sectorsSorted recs ↔ sec ∈ recs.map fun r => r.sector)
      ∧ ((sectorsSorted recs).map (stocks_per_sector recs)).sum
          = (symbolsFirst recs).length
      ∧ ((symbolsFirst recs).Nodup
          ∧ ∀ t, t ∈ symbolsFirst recs ↔ t ∈ recs.map fun r => r.symbol) := by
  have hndsec : (sectorsSorted recs).Nodup :=
    ((List.perm_insertionSort StrLE _).nodup_iff).mpr
      (nodup_dedupFirst (recs.map fun r => r.sector))
  refine ⟨?_, ?_, ⟨?_, hndsec, ?_⟩, ?_, nodup_dedupFirst _, ?_⟩
  · intro i j
    rcases Nat.lt_trichotomy i j with h | h | h
    · have h1 : ¬ i = j := by omega
      have h2 : ¬ j = i := by omega
      have h3 : ¬ j < i := by omega
      simp [corrMatrixEntry, h, h1, h2, h3]
    · subst h
      simp [corrMatrixEntry]
    · have h1 : ¬ i = j := by omega
      have h2 : ¬ j = i := by omega
      have h3 : ¬ i < j := by omega
      simp [corrMatrixEntry, h, h1, h2, h3]
  · intro i
    simp [corrMatrixEntry]
  · exact List.sorted_insertionSort StrLE _
  · intro sec
    simp [sectorsSorted, List.mem_insertionSort, mem_dedupFirst]
  · have hcov : ∀ t ∈ symbolsFirst recs,
        ∃ s ∈ sectorsSorted recs, tickerSector recs t = some s := by
      intro t ht
      obtain ⟨r, hr, rfl⟩ := List.mem_map.mp (mem_dedupFirst.mp ht)
      have hp : (r.symbol, r.sector) ∈ pairsFirst recs :=
        mem_dedupFirst.mpr (List.mem_map.mpr ⟨r, hr, rfl⟩)
      have hfne : (pairsFirst recs).filter (fun p => decide (p.1 = r.symbol)) ≠ [] := by
        intro hc
        rw [List.filter_eq_nil_iff] at hc
        exact hc _ hp (by simp)
      cases hl : ((pairsFirst recs).filter fun p => decide (p.1 = r.symbol)).getLast? with
      | none => exact absurd (List.getLast?_eq_none_iff.mp hl) hfne
      | some p =>
        refine ⟨p.2, ?_, ?_⟩
        · have hpf := List.mem_of_getLast?_eq_some hl
          have hp2 := (List.mem_filter.mp hpf).1
          obtain ⟨r2, _, hr2⟩ := List.mem_map.mp (mem_dedupFirst.mp hp2)
          simp only [sectorsSorted, List.mem_insertionSort, mem_dedupFirst]
          exact List.mem_map.mpr ⟨r2, by tauto, by rw [← hr2]⟩
        · unfold tickerSector
          rw [hl]
          rfl
    have hshape : ((sectorsSorted recs).map (stocks_per_sector recs)).sum
        = ((sectorsSorted recs).map fun s =>
            ((symbolsFirst recs).filter fun t =>
              decide (tickerSector recs t = some s)).length).sum := rfl
    rw [hshape]
    exact sum_filter_length_eq (sectorsSorted recs) hndsec
      (tickerSector recs) (symbolsFirst recs) hcov
  · intro t
    simp [symbolsFirst, mem_dedupFirst]


unseal Rat.add Rat.mul Rat.inv Rat.sub in
theorem c6_sector_matrix_witness :
    corrMatrixEntry exC6 (fun _ _ => some (1/2)) 0 1
        = corrMatrixEntry exC6 (fun _ _ => some (1/2)) 1 0
      ∧ corrMatrixEntry exC6 (fun _ _ => some (1/2)) 0 0 = 1
      ∧ ((sectorsSorted exC6).map (stocks_per_sector exC6)).sum
          = (symbolsFirst exC6).length := by
  have h := c6_sector_matrix exC6 (fun _ _ => some (1/2)) (by decide) (by decide)
  exact ⟨h.1 0 1, h.2.1 0, h.2.2.2.1⟩

theorem log_eleven_tenths_le : Real.log (11 / 10) ≤ 962 / 10000 := by
  have h := @Real.abs_log_sub_add_sum_range_le
    (-(1 / 10)) (by rw [abs_neg, abs_of_nonneg] <;> norm_num) 2
  rw [show (1 : ℝ) - -(1 / 10) = 11 / 10 by norm_num] at h
  rw [show (∑ i ∈ Finset.range 2, (-(1 / 10) : ℝ) ^ (i + 1) / (i + 1))
      = -(19 / 200) by rw [Finset.sum_range_succ, Finset.sum_range_one]; norm_num] at h
  rw [show |(-(1 / 10) : ℝ)| = 1 / 10 by rw [abs_neg, abs_of_nonneg] <;> norm_num] at h
  have h2 := (abs_le.mp h).2
  nlinarith [h2]


unseal Rat.add Rat.mul Rat.inv Rat.sub in
/-- C5, counterexample: on geometric prices for A (100, 110, 121) and
B (100, 200, 100), the spec-modelled optimize path returns weights
A ↦ 1, B ↦ 0 and reports `expected_return = 2520.0` (simple returns:
mean 10% · 252 · 100).  Feeding those weights into `calculate_metrics` on
the same prices computes `25200 · ln 1.1 ≤ 2424` (log returns) — off by
more than 95 points, far beyond any rounding tolerance, so the round-trip
does not reproduce `expected_return`. -/
theorem c5_counterexample :
    optimizeWeights exOptRows ("A") = 1 ∧ optimizeWeights exOptRows ("B") = 0
      ∧ optimizeER exOptRows = 2520
      ∧ metricsER exOptW ≤ 2425 := by
  refine ⟨by decide, by decide, by decide, ?_⟩
  have hsym : tblSymbols (wrows exOptW) = ["A", "B"] := by decide
  have hkept : keptRows (wrows exOptW) = [1, 2] := by decide
  have hwA : weightsOf exOptW ("A") = 1 := by decide
  have hwB : weightsOf exOptW ("B") = 0 := by decide
  have hrA1 : retRatio (wrows exOptW) 1 ("A") = 11 / 10 := by decide
  have hrA2 : retRatio (wrows exOptW) 2 ("A") = 11 / 10 := by decide
  unfold metricsER
  rw [hsym]
  simp only [List.map_cons, List.map_nil, List.sum_cons, List.sum_nil]
  rw [hwA, hwB]
  simp only [Rat.cast_one, Rat.cast_zero, zero_mul, add_zero, one_mul, zero_add]
  unfold logMeanOf
  rw [hkept]
  simp only [List.map_cons, List.map_nil, List.sum_cons, List.sum_nil,
    List.length_cons, List.length_nil]
  rw [hrA1, hrA2]
  have hcast : (((11 : ℚ) / 10 : ℚ) : ℝ) = 11 / 10 := by push_cast; ring
  rw [hcast]
  apply le_trans (roundToR_le 2 _)
  have hlog := log_eleven_tenths_le
  push_cast
  nlinarith [hlog]

/-- C5 (amended): the optimize path's reported metrics are the simple-return
metric engine evaluated at its own rounded HRP weights, so feeding the
returned weights into a metric computation that uses simple returns — as
§4.5 prescribes for the optimize path — reproduces `expected_return` and
`volatility` exactly, and the unrounded two-asset HRP weights always sum to
1; it is the log-return `portfolio_metrics` path that diverges (see the
counterexample). -/
theorem c5_round_trip (rows : List (String × Nat × ℚ)) :
    optimizeER rows = simpleMetricsER rows (optimizeWeights rows)
      ∧ optimizeVol rows = simpleMetricsVol rows (optimizeWeights rows)
      ∧ ∀ v0 v1 : ℚ, v0 + v1 ≠ 0 →
          (hrpWeights2 v0 v1).1 + (hrpWeights2 v0 v1).2 = 1 := by
  refine ⟨rfl, rfl, fun v0 v1 hne => ?_⟩
  unfold hrpWeights2
  rw [div_add_div_same, div_eq_one_iff_eq hne]
  ring

unseal Rat.add Rat.mul Rat.inv Rat.sub in
theorem c5_round_trip_witness :
    optimizeER exOptRows = simpleMetricsER exOptRows (optimizeWeights exOptRows)
      ∧ (hrpWeights2 0 (9 / 8)).1 + (hrpWeights2 0 (9 / 8)).2 = 1 := by
  have h := c5_round_trip exOptRows
  exact ⟨h.1, h.2.2 0 (9 / 8) (by decide)⟩
